import Mathlib

/-!
Verification of the strider byte-search core.

Shallow embedding of the strider library (a SIMD byte-search and
newline-counting library written in C) and proofs about it.

Modelling conventions:
* A byte buffer of known length is a function `mem : Nat → Nat` together
  with an explicit `size`; the C pointer arithmetic `ptr += k` becomes
  composition with `(k + ·)`.  A null-terminated string is a `List Nat`
  (the allocation); reads beyond the allocation return 0 (`List.getD`).
* A SIMD vector is a `List Nat` of byte lanes; the 128-bit width has 16
  lanes and the 256-bit width 32 lanes.  The register-width constant
  `VECTOR_SIZE` of the C code is the parameter `W`, instantiated at 16
  (SSE2/NEON build) and 32 (AVX2 build); recursive loops additionally
  carry the proof `hW : 0 < W` used only for termination.
* Machine integers are `Nat` with explicit `% 2 ^ 32` where the C code
  relies on `uint32_t` wrap-around (only in `strider_ctz32`).
-/

namespace Strider

/-! ### Vector register abstraction (src: simd/vector.h)

Lanes are bytes.  The constructs below embed the scalar-array fallback
path of the header, which the header documents as observationally
identical to the native intrinsic paths. -/

/-- Embedding of `strider_vec128_set1` / `strider_vec256_set1` (broadcast a
byte to all `W` lanes; scalar fallback path `result.data[i] = value`). -/
def strider_vec_set1 (W value : Nat) : List Nat :=
  List.replicate W value

/-- Embedding of `strider_vec128_zero` / `strider_vec256_zero`. -/
def strider_vec_zero (W : Nat) : List Nat :=
  List.replicate W 0

/-- Embedding of `strider_vec128_load_aligned` / `strider_vec256_load_aligned`
on a function-modelled memory: lane `i` is the byte at `off + i`. -/
def strider_vec_load (mem : Nat → Nat) (off W : Nat) : List Nat :=
  (List.range W).map (fun i => mem (off + i))

/-- Embedding of `strider_vec128_cmpeq` / `strider_vec256_cmpeq` (scalar
fallback path: `result.data[i] = (a.data[i] == b.data[i]) ? 0xFF : 0x00`). -/
def strider_vec_cmpeq (a b : List Nat) : List Nat :=
  List.zipWith (fun x y => if x = y then 0xFF else 0x00) a b

/-- Inner loop of the movemask scalar fallback path:
`if (vec.data[i] & 0x80) mask |= (1U << i);` for the lanes of `v`,
starting at bit position `i`. -/
def movemaskGo : List Nat → Nat → Nat
  | [], _ => 0
  | lane :: rest, i => (if lane &&& 0x80 ≠ 0 then 1 <<< i else 0) ||| movemaskGo rest (i + 1)

/-- Embedding of `strider_vec128_movemask` / `strider_vec256_movemask`
(scalar fallback path).  The in-source doc comment specifies the native
`_mm_movemask_epi8` / `_mm256_movemask_epi8` paths as "bit i = sign bit of
byte i", which is exactly this function, so it also serves as the model of
the native paths. -/
def strider_vec_movemask (v : List Nat) : Nat :=
  movemaskGo v 0

/-- Embedding of the NEON emulation path of `strider_vec128_movemask`:
shift every lane right by 7 (`vshrq_n_u8(vec.data, 7)`), store the lanes to
memory, and combine with `mask |= (bytes[i] & 1) << i`.  (The `pair0` ..
`pair3` intermediates of the source are dead code: the final combine loop
reads the `shifted` lanes directly.) -/
def armCombineGo : List Nat → Nat → Nat
  | [], _ => 0
  | b :: rest, i => ((b &&& 1) <<< i) ||| armCombineGo rest (i + 1)

/-- Embedding of the NEON path of `strider_vec128_movemask`. -/
def strider_vec128_movemask_neon (v : List Nat) : Nat :=
  armCombineGo (v.map (fun lane => lane >>> 7)) 0

/-- Embedding of the NEON path of `strider_vec256_movemask`: the two
128-bit halves are processed separately and combined as
`lo_mask | (hi_mask << 16)`. -/
def strider_vec256_movemask_neon (v : List Nat) : Nat :=
  strider_vec128_movemask_neon (v.take 16) ||| (strider_vec128_movemask_neon (v.drop 16) <<< 16)

/-! ### Bit utilities (src: simd/vector.h)

`strider_ctz32` is embedded by its portable De Bruijn fallback path; the
`__builtin_ctz` / `_BitScanForward` paths have the same documented
semantics on non-zero input, and the `x == 0` sentinel is explicit in the
source.  `strider_popcount32` is embedded by its portable path (Brian
Kernighan's loop). -/

/-- The `debruijn32` table of `strider_ctz32`. -/
def debruijn32 : List Nat :=
  [0, 1, 28, 2, 29, 14, 24, 3, 30, 22, 20, 15, 25, 17, 4, 8,
   31, 27, 13, 23, 21, 19, 16, 7, 26, 12, 18, 6, 11, 5, 10, 9]

/-- Embedding of `strider_ctz32`.  In C, `x & -x` on `uint32_t` is
`x &&& (2 ^ 32 - x)` and the multiplication wraps modulo `2 ^ 32`. -/
def strider_ctz32 (x : Nat) : Nat :=
  if x = 0 then 32
  else debruijn32.getD ((((x &&& (2 ^ 32 - x)) * 0x077CB531) % 2 ^ 32) >>> 27) 0

/-- Embedding of `strider_popcount32` (Kernighan's loop:
`while (x) { x &= x - 1; count++; }`). -/
def strider_popcount32 (x : Nat) : Nat :=
  if h : x = 0 then 0
  else strider_popcount32 (x &&& (x - 1)) + 1
termination_by x
decreasing_by
  have hle : x &&& (x - 1) ≤ x - 1 := Nat.and_le_right
  omega

/-- Naive bit-counting loop (the reference the test suite compares
`strider_popcount32` against): sum of the binary digits. -/
def naivePopcount (x : Nat) : Nat :=
  if h : x = 0 then 0
  else x % 2 + naivePopcount (x / 2)
termination_by x
decreasing_by omega

/-- Index of the lowest set bit (0-based); 0 on input 0. -/
def lowBitIdx (x : Nat) : Nat :=
  if h : x = 0 then 0
  else if x % 2 = 1 then 0
  else lowBitIdx (x / 2) + 1
termination_by x
decreasing_by omega

/-! ### Newline counter, scalar reference (src: parsers/newline.c) -/

/-- Body of the `for` loop of `strider_count_newlines`, from index `i`.
On a `\r` the loop looks one byte ahead under the guard `i + 1 < size`
and consumes the following `\n` (the C `i++` inside the loop body makes
the next index `i + 2`). -/
def countNLFrom (mem : Nat → Nat) (size i : Nat) : Nat :=
  if i < size then
    if mem i = 10 then countNLFrom mem size (i + 1) + 1
    else if mem i = 13 then
      if i + 1 < size ∧ mem (i + 1) = 10 then countNLFrom mem size (i + 2) + 1
      else countNLFrom mem size (i + 1) + 1
    else countNLFrom mem size (i + 1)
  else 0
termination_by size - i

/-- Embedding of `strider_count_newlines`. -/
def strider_count_newlines (mem : Nat → Nat) (size : Nat) : Nat :=
  countNLFrom mem size 0

/-- Body of the `for` loop of `strider_find_newline_positions`: `count` is
the running event count, `acc` the slots of `positions` written so far (a
slot is written only under the guard `count < max_positions`). -/
def findNLFrom (mem : Nat → Nat) (size maxPos i count : Nat) (acc : List Nat) :
    Nat × List Nat :=
  if i < size then
    if mem i = 10 then
      findNLFrom mem size maxPos (i + 1) (count + 1)
        (acc ++ if count < maxPos then [i] else [])
    else if mem i = 13 then
      if i + 1 < size ∧ mem (i + 1) = 10 then
        findNLFrom mem size maxPos (i + 2) (count + 1)
          (acc ++ if count < maxPos then [i] else [])
      else
        findNLFrom mem size maxPos (i + 1) (count + 1)
          (acc ++ if count < maxPos then [i] else [])
    else findNLFrom mem size maxPos (i + 1) count acc
  else (count, acc)
termination_by size - i

/-- Embedding of `strider_find_newline_positions`: returns the event count
and the written prefix of the `positions` array. -/
def strider_find_newline_positions (mem : Nat → Nat) (size maxPos : Nat) :
    Nat × List Nat :=
  findNLFrom mem size maxPos 0 0 []

/-! ### Newline counter, SIMD path (src: parsers/newline.c) -/

/-- Body of the carriage-return loop of `strider_count_newlines_simd`
(`for (int i = 0; i < W; i++)`), counting the `\r` lanes that are not
immediately followed by a `\n`: an in-chunk successor is tested against
`lf_mask`, and for the last lane the byte after the chunk is peeked
directly from memory under the guard `size > W`. -/
def crLoop (W : Nat) (mem : Nat → Nat) (size lf_mask cr_mask i : Nat) : Nat :=
  if i < W then
    (if cr_mask &&& (1 <<< i) ≠ 0 then
      if i + 1 < W then
        if lf_mask &&& (1 <<< (i + 1)) ≠ 0 then 0 else 1
      else
        if size > W ∧ mem W = 10 then 0 else 1
    else 0) + crLoop W mem size lf_mask cr_mask (i + 1)
  else 0
termination_by W - i

/-- One iteration of the chunk loop of `strider_count_newlines_simd`: the
chunk is the `W` bytes at offsets `[0, W)` of `mem` and `size ≥ W` bytes
remain.  Tallies `popcount(lf_mask)` plus the unpaired carriage returns. -/
def chunkNL (W : Nat) (mem : Nat → Nat) (size : Nat) : Nat :=
  let lf_mask := strider_vec_movemask
    (strider_vec_cmpeq (strider_vec_load mem 0 W) (strider_vec_set1 W 10))
  let cr_mask := strider_vec_movemask
    (strider_vec_cmpeq (strider_vec_load mem 0 W) (strider_vec_set1 W 13))
  strider_popcount32 lf_mask +
    (if cr_mask ≠ 0 then crLoop W mem size lf_mask cr_mask 0 else 0)

/-- The `while (size >= W)` chunk loop of `strider_count_newlines_simd`,
followed by the scalar tail (`ptr += W; size -= W` becomes shifting the
memory function). -/
def simdNLLoop (W : Nat) (hW : 0 < W) (mem : Nat → Nat) (size : Nat) : Nat :=
  if W ≤ size then
    chunkNL W mem size + simdNLLoop W hW (fun i => mem (W + i)) (size - W)
  else strider_count_newlines mem size
termination_by size
decreasing_by omega

/-- Embedding of `strider_count_newlines_simd`.  `addr` is the base
address of the buffer; `prefix_len = (W - (addr & (W-1))) & (W-1)` is the
distance to the next `W`-aligned address (for `W` a power of two,
`addr & (W-1) = addr % W`).  The unaligned prefix is scanned with the
scalar routine, then the aligned body and the tail. -/
def strider_count_newlines_simd (W : Nat) (hW : 0 < W) (addr : Nat)
    (mem : Nat → Nat) (size : Nat) : Nat :=
  let prefix_len := (W - addr % W) % W
  if 0 < prefix_len ∧ prefix_len < size then
    strider_count_newlines mem prefix_len +
      simdNLLoop W hW (fun i => mem (prefix_len + i)) (size - prefix_len)
  else
    simdNLLoop W hW mem size

/-! ### Byte search (src: parsers/strchr.c)

A null-terminated string lives in an allocation `mem : List Nat`; reads
use `byteAt`, which returns 0 beyond the allocation — every theorem below
assumes the terminator lies inside `mem`, so in-specification executions
never depend on that padding. -/

/-- Read one byte of the allocation (0 beyond its end). -/
def byteAt (mem : List Nat) (i : Nat) : Nat :=
  mem.getD i 0

/-- Body of the scalar loop of `strider_strchr`
(`while (*str != '\0') { if (*str == target) return str; str++; }` followed
by the terminator check), over the remaining bytes `l` at index `i`.
Returns the matching index, or `none`.  (An allocation with no terminator
would be undefined behavior in C; here the scan just ends.) -/
def strchrGo (target : Nat) : List Nat → Nat → Option Nat
  | [], _ => none
  | b :: rest, i =>
    if b = 0 then (if target = 0 then some i else none)
    else if b = target then some i
    else strchrGo target rest (i + 1)

/-- Embedding of `strider_strchr` (result as an index into `mem`). -/
def strider_strchr (mem : List Nat) (target : Nat) : Option Nat :=
  strchrGo target mem 0

/-- Unaligned-prefix loop of `strider_strchr_simd`: scan indices
`[i, prefix_len)`; `some r` means the function returned `r`, `none` means
control fell through to the aligned loop. -/
def strchrPrefix (mem : List Nat) (target prefix_len i : Nat) :
    Option (Option Nat) :=
  if i < prefix_len then
    if byteAt mem i = target then some (some i)
    else if byteAt mem i = 0 then some (if target = 0 then some i else none)
    else strchrPrefix mem target prefix_len (i + 1)
  else none
termination_by prefix_len - i

/-- The `while (1)` aligned chunk loop of `strider_strchr_simd`.  Once
`off` passes the end of the allocation every lane of the loaded chunk is
padding 0, so the loop body returns immediately; the explicit base case
states that return value, which keeps the recursion well-founded. -/
def strchrChunkLoop (W : Nat) (hW : 0 < W) (mem : List Nat) (target off : Nat) :
    Option Nat :=
  if off < mem.length then
    let null_mask := strider_vec_movemask
      (strider_vec_cmpeq (strider_vec_load (byteAt mem) off W) (strider_vec_zero W))
    let target_mask := strider_vec_movemask
      (strider_vec_cmpeq (strider_vec_load (byteAt mem) off W) (strider_vec_set1 W target))
    if null_mask ≠ 0 then
      if target_mask ≠ 0 ∧ strider_ctz32 target_mask < strider_ctz32 null_mask then
        some (off + strider_ctz32 target_mask)
      else if target = 0 then some (off + strider_ctz32 null_mask) else none
    else if target_mask ≠ 0 then some (off + strider_ctz32 target_mask)
    else strchrChunkLoop W hW mem target (off + W)
  else if target = 0 then some off else none
termination_by mem.length - off

/-- Embedding of `strider_strchr_simd` (result as an index into `mem`).
`addr` is the base address of the string. -/
def strider_strchr_simd (W : Nat) (hW : 0 < W) (addr : Nat) (mem : List Nat)
    (target : Nat) : Option Nat :=
  let prefix_len := (W - addr % W) % W
  if 0 < prefix_len then
    match strchrPrefix mem target prefix_len 0 with
    | some r => r
    | none => strchrChunkLoop W hW mem target prefix_len
  else strchrChunkLoop W hW mem target 0

/-! ### CPU capability cache (src: config.c, embedded in the repository
after parsers/newline.h) -/

/-- Embedding of `strider_cpu_features_t`.  The `vendor` string is a list
of bytes (`char vendor[13]`). -/
structure strider_cpu_features_t where
  arch_x86_64 : Bool
  arch_arm64 : Bool
  has_sse2 : Bool
  has_sse3 : Bool
  has_ssse3 : Bool
  has_sse4_1 : Bool
  has_sse4_2 : Bool
  has_avx : Bool
  has_avx2 : Bool
  has_avx512f : Bool
  has_avx512bw : Bool
  has_neon : Bool
  has_sve : Bool
  has_sve2 : Bool
  vendor : List Nat
  family : Nat
  model : Nat
deriving DecidableEq

/-- The zero-initialized descriptor (`static strider_cpu_features_t
cached_features = {0}`). -/
def zeroFeatures : strider_cpu_features_t :=
  ⟨false, false, false, false, false, false, false, false, false, false,
   false, false, false, false, List.replicate 13 0, 0, 0⟩

/-- The process-wide mutable state of `strider_get_cpu_features`: the two
C statics, plus an instrumentation counter of how many times the
detection (`detect_x86_features` / `detect_arm_features`) has run. -/
structure CpuFeaturesCache where
  initialized : Bool
  cached_features : strider_cpu_features_t
  detect_count : Nat
deriving DecidableEq

/-- The state before the first call (`= {0}` / `false`). -/
def initialCpuCache : CpuFeaturesCache :=
  ⟨false, zeroFeatures, 0⟩

/-- Embedding of `strider_get_cpu_features` as a state transformer.
`detect` is the (deterministic, per-process) result of the hardware probe
`detect_x86_features` / `detect_arm_features`; the architecture flag set
in the `#if` block is folded into `detect`. -/
def strider_get_cpu_features (detect : strider_cpu_features_t)
    (s : CpuFeaturesCache) : strider_cpu_features_t × CpuFeaturesCache :=
  if s.initialized then (s.cached_features, s)
  else (detect, ⟨true, detect, s.detect_count + 1⟩)

/-- Run `n` successive calls of `strider_get_cpu_features`, collecting the
returned descriptors and the final state. -/
def runCpuFeatureCalls (detect : strider_cpu_features_t) (s : CpuFeaturesCache) :
    Nat → List strider_cpu_features_t × CpuFeaturesCache
  | 0 => ([], s)
  | n + 1 =>
    let r := strider_get_cpu_features detect s
    let rest := runCpuFeatureCalls detect r.2 n
    (r.1 :: rest.1, rest.2)

/-! ### Specification-side definitions (used only to state the
properties proved below; the embeddings of the source are above) -/

/-- Indicator mask: bit `j` (for `j < W`) is set iff the byte at
`off + j` equals `t`.  This is the arithmetic normal form of
`movemask (cmpeq (load mem off W) (set1 W t))`. -/
def indMask (mem : Nat → Nat) (t : Nat) : Nat → Nat → Nat
  | _, 0 => 0
  | off, W + 1 => (if mem off = t then 1 else 0) + 2 * indMask mem t (off + 1) W

/-- Number of bytes equal to `t` among offsets `[off, off + W)`. -/
def countEq (mem : Nat → Nat) (t : Nat) : Nat → Nat → Nat
  | _, 0 => 0
  | off, W + 1 => (if mem off = t then 1 else 0) + countEq mem t (off + 1) W

/-- Specification count of line feeds at offsets `[i, size)`. -/
def countLF (mem : Nat → Nat) (size i : Nat) : Nat :=
  if i < size then
    (if mem i = 10 then 1 else 0) + countLF mem size (i + 1)
  else 0
termination_by size - i

/-- Specification count of carriage returns at offsets `[i, size)` that are
not immediately followed (inside the buffer) by a line feed. -/
def countCRUnpaired (mem : Nat → Nat) (size i : Nat) : Nat :=
  if i < size then
    (if mem i = 13 ∧ ¬(i + 1 < size ∧ mem (i + 1) = 10) then 1 else 0)
      + countCRUnpaired mem size (i + 1)
  else 0
termination_by size - i

/-- Specification list of event offsets from index `i`: the offset of each
lone `\n`, of each lone `\r`, and of the `\r` of each `\r\n` pair (whose
`\n` is consumed). -/
def eventOffsets (mem : Nat → Nat) (size i : Nat) : List Nat :=
  if i < size then
    if mem i = 10 then i :: eventOffsets mem size (i + 1)
    else if mem i = 13 then
      if i + 1 < size ∧ mem (i + 1) = 10 then i :: eventOffsets mem size (i + 2)
      else i :: eventOffsets mem size (i + 1)
    else eventOffsets mem size (i + 1)
  else []
termination_by size - i

/-- The scalar scan viewed from an arbitrary start index. -/
def scanFrom (mem : List Nat) (target i : Nat) : Option Nat :=
  strchrGo target (mem.drop i) i

/-- View a finite byte list as a memory function (bytes past the list are
irrelevant padding zeros). -/
def bufOfList (l : List Nat) : Nat → Nat :=
  fun i => l.getD i 0

/-- The two-byte Windows line terminator as a buffer. -/
def crlfBuf : Nat → Nat :=
  bufOfList [13, 10]

/-- The scenario buffer "line 1\r\nline 2\rline 3\n" (22 bytes). -/
def scenarioBuf : Nat → Nat :=
  bufOfList [108, 105, 110, 101, 32, 49, 13, 10, 108, 105, 110, 101, 32, 50, 13,
    108, 105, 110, 101, 32, 51, 10]

/-- The scenario buffer "1\n2\n3\n4\n5\n" (10 bytes). -/
def scenario5Buf : Nat → Nat :=
  bufOfList [49, 10, 50, 10, 51, 10, 52, 10, 53, 10]

/-! ## Proof development

### Bit-level toolkit -/

/-- The lowest set bit of a non-zero number is set. -/
theorem lowBitIdx_testBit (x : Nat) : x ≠ 0 → x.testBit (lowBitIdx x) = true := by
  induction x using lowBitIdx.induct with
  | case1 => intro hx; exact absurd rfl hx
  | case2 x h hodd =>
    intro _
    rw [lowBitIdx, dif_neg h, if_pos hodd]
    simp [Nat.testBit_zero, hodd]
  | case3 x h hodd ih =>
    intro _
    rw [lowBitIdx, dif_neg h, if_neg hodd]
    rw [Nat.testBit_add_one]
    exact ih (by omega)

/-- All bits below the lowest set bit are clear. -/
theorem lowBitIdx_testBit_lt (x : Nat) : x ≠ 0 →
    ∀ j < lowBitIdx x, x.testBit j = false := by
  induction x using lowBitIdx.induct with
  | case1 => intro hx; exact absurd rfl hx
  | case2 x h hodd =>
    intro _
    rw [lowBitIdx, dif_neg h, if_pos hodd]
    omega
  | case3 x h hodd ih =>
    intro _
    rw [lowBitIdx, dif_neg h, if_neg hodd]
    intro j hj
    match j with
    | 0 => simp [Nat.testBit_zero]; omega
    | j + 1 =>
      rw [Nat.testBit_add_one]
      exact ih (by omega) j (by omega)

/-- Bits of `x - 1` in terms of the lowest set bit of `x`: the bits below
it flip to one, the bit itself clears, the rest are unchanged. -/
theorem testBit_sub_one (x : Nat) : x ≠ 0 → ∀ i : Nat,
    (x - 1).testBit i =
      (if i < lowBitIdx x then true
       else if i = lowBitIdx x then false
       else x.testBit i) := by
  induction x using lowBitIdx.induct with
  | case1 => intro hx; exact absurd rfl hx
  | case2 x h hodd =>
    intro _ i
    rw [lowBitIdx, dif_neg h, if_pos hodd]
    match i with
    | 0 =>
      have h1 : (x - 1) % 2 = 0 := by omega
      simp [Nat.testBit_zero, h1]
    | i + 1 =>
      have h2 : (x - 1) / 2 = x / 2 := by omega
      rw [Nat.testBit_add_one, h2, Nat.testBit_div_two,
        if_neg (by omega), if_neg (by omega)]
  | case3 x h hodd ih =>
    intro _ i
    rw [lowBitIdx, dif_neg h, if_neg hodd]
    have hx2 : x / 2 ≠ 0 := by omega
    match i with
    | 0 =>
      have h1 : (x - 1) % 2 = 1 := by omega
      simp [Nat.testBit_zero, h1]
    | i + 1 =>
      have h2 : (x - 1) / 2 = x / 2 - 1 := by omega
      rw [Nat.testBit_add_one, h2, ih hx2 i, Nat.testBit_add_one]
      rcases Nat.lt_trichotomy i (lowBitIdx (x / 2)) with hlt | heq | hgt
      · rw [if_pos hlt, if_pos (by omega)]
      · subst heq
        rw [if_neg (by omega), if_pos rfl, if_neg (by omega), if_pos (by omega)]
      · rw [if_neg (by omega), if_neg (by omega), if_neg (by omega),
          if_neg (by omega)]

/-- The two's-complement trick: on `w`-bit arithmetic, `x & -x` isolates
the lowest set bit. -/
theorem and_two_pow_sub (w x : Nat) (h0 : 0 < x) (hw : x < 2 ^ w) :
    x &&& (2 ^ w - x) = 2 ^ lowBitIdx x := by
  have hx : x ≠ 0 := by omega
  apply Nat.eq_of_testBit_eq
  intro i
  have hrw : 2 ^ w - x = 2 ^ w - ((x - 1) + 1) := by omega
  rw [Nat.testBit_and, hrw,
    Nat.testBit_two_pow_sub_succ (by omega : x - 1 < 2 ^ w),
    Nat.testBit_two_pow, testBit_sub_one x hx]
  rcases Nat.lt_trichotomy i (lowBitIdx x) with hlt | heq | hgt
  · rw [lowBitIdx_testBit_lt x hx i hlt, if_pos hlt]
    simp; omega
  · subst heq
    have hk : x.testBit (lowBitIdx x) = true := lowBitIdx_testBit x hx
    have hkw : lowBitIdx x < w := by
      by_contra hc
      have h1 : 2 ^ lowBitIdx x ≤ x := Nat.testBit_implies_ge hk
      have h2 : 2 ^ w ≤ 2 ^ lowBitIdx x := Nat.pow_le_pow_right (by omega) (by omega)
      omega
    simp [hk, hkw]
  · rw [if_neg (by omega), if_neg (by omega)]
    cases htb : x.testBit i with
    | false => simp [htb]; omega
    | true =>
      have hiw : i < w := by
        by_contra hc
        have h1 : 2 ^ i ≤ x := Nat.testBit_implies_ge htb
        have h2 : 2 ^ w ≤ 2 ^ i := Nat.pow_le_pow_right (by omega) (by omega)
        omega
      simp [htb, hiw]; omega

/-- The De Bruijn multiply-and-shift lookup recovers the exponent of each
32-bit power of two. -/
theorem debruijn_correct :
    ∀ k < 32, debruijn32.getD ((2 ^ k * 0x077CB531 % 2 ^ 32) >>> 27) 0 = k := by
  decide

/-- On non-zero 32-bit input, `strider_ctz32` computes the index of the
lowest set bit. -/
theorem strider_ctz32_eq_lowBitIdx (x : Nat) (h0 : 0 < x) (hw : x < 2 ^ 32) :
    strider_ctz32 x = lowBitIdx x := by
  have hx : x ≠ 0 := by omega
  have hk : x.testBit (lowBitIdx x) = true := lowBitIdx_testBit x hx
  have hk32 : lowBitIdx x < 32 := by
    by_contra hc
    have h1 : 2 ^ lowBitIdx x ≤ x := Nat.testBit_implies_ge hk
    have h2 : 2 ^ 32 ≤ 2 ^ lowBitIdx x := Nat.pow_le_pow_right (by omega) (by omega)
    omega
  rw [strider_ctz32, if_neg hx, and_two_pow_sub 32 x h0 hw]
  exact debruijn_correct (lowBitIdx x) hk32

/-- For odd numbers, clearing the lowest set bit is subtracting one. -/
theorem and_sub_one_of_odd (x : Nat) (hodd : x % 2 = 1) :
    x &&& (x - 1) = x - 1 := by
  have hx : x ≠ 0 := by omega
  have hlow : lowBitIdx x = 0 := by
    rw [lowBitIdx, dif_neg hx, if_pos hodd]
  apply Nat.eq_of_testBit_eq
  intro i
  rw [Nat.testBit_and, testBit_sub_one x hx i, hlow]
  match i with
  | 0 => simp
  | i + 1 => simp

/-- For even numbers, clearing the lowest set bit commutes with halving. -/
theorem and_sub_one_of_even (x : Nat) (heven : x % 2 = 0) :
    x &&& (x - 1) = 2 * ((x / 2) &&& (x / 2 - 1)) := by
  apply Nat.eq_of_testBit_eq
  intro i
  match i with
  | 0 =>
    simp only [Nat.testBit_zero]
    have h1 : x % 2 = 0 := heven
    have h2 : (2 * ((x / 2) &&& (x / 2 - 1))) % 2 = 0 := by omega
    simp [h1, h2]
  | i + 1 =>
    have h2 : (x - 1) / 2 = x / 2 - 1 := by omega
    have h3 : 2 * ((x / 2) &&& (x / 2 - 1)) / 2 = (x / 2) &&& (x / 2 - 1) :=
      Nat.mul_div_cancel_left _ (by norm_num)
    rw [Nat.testBit_and, Nat.testBit_add_one x i, Nat.testBit_add_one (x - 1) i,
      h2, Nat.testBit_add_one _ i, h3, Nat.testBit_and]

/-- Clearing the lowest set bit of a non-zero number removes exactly one
bit from the naive bit count. -/
theorem naivePopcount_and_sub_one (x : Nat) : x ≠ 0 →
    naivePopcount x = naivePopcount (x &&& (x - 1)) + 1 := by
  induction x using Nat.strong_induction_on with
  | _ x ih =>
    intro hx
    rcases Nat.even_or_odd x with he | ho
    · have heven : x % 2 = 0 := Nat.even_iff.mp he
      have hx2 : x / 2 ≠ 0 := by omega
      rw [and_sub_one_of_even x heven]
      have hm : naivePopcount (2 * ((x / 2) &&& (x / 2 - 1)))
          = naivePopcount ((x / 2) &&& (x / 2 - 1)) := by
        by_cases hz : (x / 2) &&& (x / 2 - 1) = 0
        · rw [hz]
        · have hmod : 2 * ((x / 2) &&& (x / 2 - 1)) % 2 = 0 := Nat.mul_mod_right 2 _
          have hdiv : 2 * ((x / 2) &&& (x / 2 - 1)) / 2 = (x / 2) &&& (x / 2 - 1) :=
            Nat.mul_div_cancel_left _ (by norm_num)
          rw [naivePopcount, dif_neg (Nat.mul_ne_zero (by norm_num) hz), hmod, hdiv,
            Nat.zero_add]
      rw [hm, naivePopcount, dif_neg hx, heven,
        ih (x / 2) (by omega) hx2]
      omega
    · have hodd : x % 2 = 1 := Nat.odd_iff.mp ho
      rw [and_sub_one_of_odd x hodd]
      rw [naivePopcount, dif_neg hx, hodd]
      have hd : (x - 1) / 2 = x / 2 := by omega
      by_cases h1 : x = 1
      · subst h1; simp [naivePopcount]
      · rw [show naivePopcount (x - 1)
            = (x - 1) % 2 + naivePopcount ((x - 1) / 2) by
              rw [naivePopcount, dif_neg (by omega)], hd]
        omega

/-- The Kernighan loop agrees with the naive bit-counting loop. -/
theorem strider_popcount32_eq_naive (x : Nat) :
    strider_popcount32 x = naivePopcount x := by
  induction x using Nat.strong_induction_on with
  | _ x ih =>
    by_cases hx : x = 0
    · subst hx; simp [strider_popcount32, naivePopcount]
    · have hlt : x &&& (x - 1) < x := by
        have : x &&& (x - 1) ≤ x - 1 := Nat.and_le_right
        omega
      rw [strider_popcount32, dif_neg hx, ih _ hlt,
        naivePopcount_and_sub_one x hx]

/-! ### Characterizing movemask of a compare-equal vector -/

/-- Doubling distributes over bitwise or. -/
theorem or_two_mul (a b : Nat) : (2 * a) ||| (2 * b) = 2 * (a ||| b) := by
  apply Nat.eq_of_testBit_eq
  intro i
  match i with
  | 0 =>
    simp [Nat.testBit_or, Nat.testBit_zero, Nat.mul_mod_right]
  | i + 1 =>
    have d : ∀ c : Nat, 2 * c / 2 = c := fun c => Nat.mul_div_cancel_left _ (by norm_num)
    rw [Nat.testBit_or, Nat.testBit_add_one, Nat.testBit_add_one, Nat.testBit_add_one,
      d, d, d, Nat.testBit_or]

/-- Bitwise or of a single low bit with an even number is addition. -/
theorem or_bit_add (b m : Nat) (hb : b ≤ 1) : b ||| (2 * m) = b + 2 * m := by
  rcases Nat.le_one_iff_eq_zero_or_eq_one.mp hb with rfl | rfl
  · rw [Nat.zero_or, Nat.zero_add]
  · apply Nat.eq_of_testBit_eq
    intro i
    match i with
    | 0 =>
      have h1 : (1 + 2 * m) % 2 = 1 := by omega
      simp [Nat.testBit_or, Nat.testBit_zero, Nat.mul_mod_right, h1]
    | i + 1 =>
      have d1 : 2 * m / 2 = m := Nat.mul_div_cancel_left _ (by norm_num)
      have d2 : (1 + 2 * m) / 2 = m := by omega
      rw [Nat.testBit_or, Nat.testBit_add_one, Nat.testBit_add_one, Nat.testBit_add_one,
        d1, d2]
      simp [Nat.div_eq_of_lt]

/-- Bumping the starting bit position of the movemask combine loop doubles
its result. -/
theorem movemaskGo_shift (v : List Nat) : ∀ s, movemaskGo v (s + 1) = 2 * movemaskGo v s := by
  induction v with
  | nil => intro s; rfl
  | cons lane rest ih =>
    intro s
    rw [movemaskGo, movemaskGo, ih (s + 1)]
    by_cases h : lane &&& 0x80 ≠ 0
    · rw [if_pos h, if_pos h, Nat.shiftLeft_succ, or_two_mul]
    · rw [if_neg h, if_neg h, Nat.zero_or, Nat.zero_or]

/-- Movemask of a non-empty vector, as low bit plus doubled tail. -/
theorem movemask_cons (c : Nat) (v : List Nat) :
    strider_vec_movemask (c :: v)
      = (if c &&& 0x80 ≠ 0 then 1 else 0) + 2 * strider_vec_movemask v := by
  rw [strider_vec_movemask, movemaskGo, movemaskGo_shift, strider_vec_movemask]
  by_cases h : c &&& 0x80 ≠ 0
  · rw [if_pos h, if_pos h, Nat.shiftLeft_zero, or_bit_add 1 _ (by omega)]
  · rw [if_neg h, if_neg h, Nat.zero_or, Nat.zero_add]

/-- Peeling one lane off a vector load. -/
theorem vec_load_succ (mem : Nat → Nat) (off W : Nat) :
    strider_vec_load mem off (W + 1) = mem off :: strider_vec_load mem (off + 1) W := by
  unfold strider_vec_load
  rw [List.range_succ_eq_map, List.map_cons, List.map_map]
  refine congrArg₂ _ (by rw [Nat.add_zero]) ?_
  apply List.map_congr_left
  intro a _
  simp only [Function.comp_apply, Nat.succ_eq_add_one]
  congr 1
  omega

/-- The movemask of a compare-equal against a broadcast byte is the
indicator mask of that byte. -/
theorem movemask_cmpeq_load (mem : Nat → Nat) (t : Nat) : ∀ W off,
    strider_vec_movemask
      (strider_vec_cmpeq (strider_vec_load mem off W) (strider_vec_set1 W t))
      = indMask mem t off W := by
  intro W
  induction W with
  | zero =>
    intro off
    rfl
  | succ W ih =>
    intro off
    rw [vec_load_succ, strider_vec_set1, List.replicate_succ, strider_vec_cmpeq,
      List.zipWith_cons_cons, movemask_cons, indMask]
    have harg : strider_vec_cmpeq (strider_vec_load mem (off + 1) W)
        (strider_vec_set1 W t)
        = List.zipWith (fun x y => if x = y then 0xFF else 0x00)
            (strider_vec_load mem (off + 1) W) (List.replicate W t) := rfl
    rw [← harg, ih (off + 1)]
    by_cases h : mem off = t
    · rw [if_pos h, if_pos h, if_pos (show (255 : Nat) &&& 128 ≠ 0 by decide)]
    · rw [if_neg h, if_neg h, if_neg (show ¬((0 : Nat) &&& 128 ≠ 0) by decide)]

/-- The indicator mask uses only its `W` low bits. -/
theorem indMask_lt (mem : Nat → Nat) (t : Nat) : ∀ W off, indMask mem t off W < 2 ^ W := by
  intro W
  induction W with
  | zero => intro off; simp [indMask]
  | succ W ih =>
    intro off
    rw [indMask]
    have h1 := ih (off + 1)
    have h2 : 2 ^ (W + 1) = 2 * 2 ^ W := by rw [Nat.pow_succ]; omega
    by_cases h : mem off = t
    · rw [if_pos h]; omega
    · rw [if_neg h]; omega

/-- Adding a low bit to a doubled number shifts its naive bit count. -/
theorem naivePopcount_bit (b m : Nat) (hb : b ≤ 1) :
    naivePopcount (b + 2 * m) = b + naivePopcount m := by
  by_cases hz : b + 2 * m = 0
  · have hb0 : b = 0 := by omega
    have hm0 : m = 0 := by omega
    subst hb0; subst hm0
    simp [naivePopcount]
  · have hmod : (b + 2 * m) % 2 = b := by omega
    have hdiv : (b + 2 * m) / 2 = m := by omega
    rw [naivePopcount, dif_neg hz, hmod, hdiv]

/-- Bit `j` of the indicator mask is set iff position `j` is inside the
window and the byte there equals `t`. -/
theorem indMask_testBit (mem : Nat → Nat) (t : Nat) : ∀ W off j,
    (indMask mem t off W).testBit j = true ↔ (j < W ∧ mem (off + j) = t) := by
  intro W
  induction W with
  | zero =>
    intro off j
    simp [indMask]
  | succ W ih =>
    intro off j
    rw [indMask]
    by_cases h : mem off = t
    · rw [if_pos h]
      match j with
      | 0 =>
        have hmod : (1 + 2 * indMask mem t (off + 1) W) % 2 = 1 := by omega
        simp [Nat.testBit_zero, hmod, h]
      | j + 1 =>
        have hdiv : (1 + 2 * indMask mem t (off + 1) W) / 2 = indMask mem t (off + 1) W := by
          omega
        rw [Nat.testBit_add_one, hdiv, ih (off + 1) j]
        have harith : off + 1 + j = off + (j + 1) := by omega
        rw [harith]
        omega
    · rw [if_neg h]
      match j with
      | 0 =>
        have hmod : (0 + 2 * indMask mem t (off + 1) W) % 2 = 0 := by omega
        simp [Nat.testBit_zero, hmod]
        intro hc
        exact absurd hc h
      | j + 1 =>
        have hdiv : (0 + 2 * indMask mem t (off + 1) W) / 2 = indMask mem t (off + 1) W := by
          omega
        rw [Nat.testBit_add_one, hdiv, ih (off + 1) j]
        have harith : off + 1 + j = off + (j + 1) := by omega
        rw [harith]
        omega

/-- The naive bit count of the indicator mask counts matching bytes. -/
theorem naivePopcount_indMask (mem : Nat → Nat) (t : Nat) : ∀ W off,
    naivePopcount (indMask mem t off W) = countEq mem t off W := by
  intro W
  induction W with
  | zero => intro off; simp [indMask, countEq, naivePopcount]
  | succ W ih =>
    intro off
    rw [indMask, countEq, ← ih (off + 1)]
    by_cases h : mem off = t
    · rw [if_pos h]
      exact naivePopcount_bit 1 _ (by omega)
    · rw [if_neg h]
      exact naivePopcount_bit 0 _ (by omega)

/-- The indicator mask vanishes iff no byte in the window matches. -/
theorem indMask_eq_zero (mem : Nat → Nat) (t W off : Nat) :
    indMask mem t off W = 0 ↔ ∀ j < W, mem (off + j) ≠ t := by
  constructor
  · intro h j hj hc
    have := (indMask_testBit mem t W off j).mpr ⟨hj, hc⟩
    rw [h] at this
    simp at this
  · intro h
    apply Nat.eq_of_testBit_eq
    intro j
    rw [Nat.zero_testBit]
    cases htb : (indMask mem t off W).testBit j with
    | false => rfl
    | true =>
      obtain ⟨hj, hc⟩ := (indMask_testBit mem t W off j).mp htb
      exact absurd hc (h j hj)

/-- On a non-zero indicator mask (for window width at most 32),
`strider_ctz32` returns the first matching position. -/
theorem ctz_indMask (mem : Nat → Nat) (t W off : Nat) (hW : W ≤ 32)
    (h : indMask mem t off W ≠ 0) :
    strider_ctz32 (indMask mem t off W) < W ∧
    mem (off + strider_ctz32 (indMask mem t off W)) = t ∧
    ∀ j < strider_ctz32 (indMask mem t off W), mem (off + j) ≠ t := by
  have hlt : indMask mem t off W < 2 ^ 32 :=
    lt_of_lt_of_le (indMask_lt mem t W off) (Nat.pow_le_pow_right (by omega) hW)
  rw [strider_ctz32_eq_lowBitIdx _ (by omega) hlt]
  have hbit := lowBitIdx_testBit _ h
  obtain ⟨hk, hkm⟩ := (indMask_testBit mem t W off _).mp hbit
  refine ⟨hk, hkm, ?_⟩
  intro j hj hc
  have hfalse := lowBitIdx_testBit_lt _ h j hj
  have htrue := (indMask_testBit mem t W off j).mpr ⟨by omega, hc⟩
  rw [hfalse] at htrue
  exact Bool.noConfusion htrue

/-! ### Specification-side counters for the scalar newline scan -/

/-- The scalar newline scan counts one event per line feed plus one event
per unpaired carriage return. -/
theorem countNLFrom_eq_spec (mem : Nat → Nat) (size : Nat) : ∀ i,
    countNLFrom mem size i = countLF mem size i + countCRUnpaired mem size i := by
  intro i
  refine countNLFrom.induct mem size
    (fun i => countNLFrom mem size i = countLF mem size i + countCRUnpaired mem size i)
    ?_ ?_ ?_ ?_ ?_ i
  · intro i hi h10 ih
    rw [countNLFrom, if_pos hi, if_pos h10,
      countLF, if_pos hi, if_pos h10,
      countCRUnpaired, if_pos hi, if_neg (by simp [h10]), ih]
    omega
  · intro i hi h10 h13 hpair ih
    have hn : mem (i + 1) = 10 := hpair.2
    have hi1 : i + 1 < size := hpair.1
    rw [countNLFrom, if_pos hi, if_neg h10, if_pos h13, if_pos hpair,
      countLF, if_pos hi, if_neg h10,
      countLF, if_pos hi1, if_pos hn,
      countCRUnpaired, if_pos hi, if_neg (by simp [hpair.1, hpair.2]),
      countCRUnpaired, if_pos hi1, if_neg (by simp [hn]), ih,
      show i + 1 + 1 = i + 2 by omega]
    omega
  · intro i hi h10 h13 hpair ih
    rw [countNLFrom, if_pos hi, if_neg h10, if_pos h13, if_neg hpair,
      countLF, if_pos hi, if_neg h10,
      countCRUnpaired, if_pos hi, if_pos ⟨h13, hpair⟩, ih]
    omega
  · intro i hi h10 h13 ih
    rw [countNLFrom, if_pos hi, if_neg h10, if_neg h13,
      countLF, if_pos hi, if_neg h10,
      countCRUnpaired, if_pos hi, if_neg (by simp [h13]), ih]
    omega
  · intro i hi
    rw [countNLFrom, if_neg hi, countLF, if_neg hi, countCRUnpaired, if_neg hi]

/-- There is one recorded offset per counted event. -/
theorem eventOffsets_length (mem : Nat → Nat) (size : Nat) : ∀ i,
    (eventOffsets mem size i).length = countNLFrom mem size i := by
  refine countNLFrom.induct mem size
    (fun i => (eventOffsets mem size i).length = countNLFrom mem size i)
    ?_ ?_ ?_ ?_ ?_
  · intro i hi h10 ih
    rw [eventOffsets, if_pos hi, if_pos h10, countNLFrom, if_pos hi, if_pos h10,
      List.length_cons, ih]
  · intro i hi h10 h13 hpair ih
    rw [eventOffsets, if_pos hi, if_neg h10, if_pos h13, if_pos hpair,
      countNLFrom, if_pos hi, if_neg h10, if_pos h13, if_pos hpair,
      List.length_cons, ih]
  · intro i hi h10 h13 hpair ih
    rw [eventOffsets, if_pos hi, if_neg h10, if_pos h13, if_neg hpair,
      countNLFrom, if_pos hi, if_neg h10, if_pos h13, if_neg hpair,
      List.length_cons, ih]
  · intro i hi h10 h13 ih
    rw [eventOffsets, if_pos hi, if_neg h10, if_neg h13,
      countNLFrom, if_pos hi, if_neg h10, if_neg h13, ih]
  · intro i hi
    rw [eventOffsets, if_neg hi, countNLFrom, if_neg hi, List.length_nil]

/-- Appending one written slot commutes with truncating the remaining
offsets: the written array is always a `take` of the full offset list. -/
theorem take_write (count maxPos i : Nat) (tail acc : List Nat) :
    (acc ++ if count < maxPos then [i] else []) ++ tail.take (maxPos - (count + 1))
      = acc ++ (i :: tail).take (maxPos - count) := by
  by_cases h : count < maxPos
  · rw [if_pos h, show maxPos - count = (maxPos - (count + 1)) + 1 by omega,
      List.take_succ_cons, List.append_assoc, List.singleton_append]
  · rw [if_neg h, show maxPos - count = 0 by omega,
      show maxPos - (count + 1) = 0 by omega]
    simp

/-- Characterization of the position-listing loop: it returns the running
count plus the number of remaining events, and appends to `acc` exactly
the next `max_positions - count` event offsets. -/
theorem findNLFrom_spec (mem : Nat → Nat) (size maxPos : Nat) : ∀ i count acc,
    findNLFrom mem size maxPos i count acc
      = (count + countNLFrom mem size i,
         acc ++ (eventOffsets mem size i).take (maxPos - count)) := by
  refine findNLFrom.induct mem size maxPos
    (fun i count acc => findNLFrom mem size maxPos i count acc
      = (count + countNLFrom mem size i,
         acc ++ (eventOffsets mem size i).take (maxPos - count)))
    ?_ ?_ ?_ ?_ ?_
  · intro i count acc hi h10 ih
    simp only [dite_eq_ite] at ih
    rw [findNLFrom, if_pos hi, if_pos h10,
      countNLFrom, if_pos hi, if_pos h10,
      eventOffsets, if_pos hi, if_pos h10, ih,
      Prod.mk.injEq]
    exact ⟨by omega, take_write count maxPos i _ acc⟩
  · intro i count acc hi h10 h13 hpair ih
    simp only [dite_eq_ite] at ih
    rw [findNLFrom, if_pos hi, if_neg h10, if_pos h13, if_pos hpair,
      countNLFrom, if_pos hi, if_neg h10, if_pos h13, if_pos hpair,
      eventOffsets, if_pos hi, if_neg h10, if_pos h13, if_pos hpair, ih,
      Prod.mk.injEq]
    exact ⟨by omega, take_write count maxPos i _ acc⟩
  · intro i count acc hi h10 h13 hpair ih
    simp only [dite_eq_ite] at ih
    rw [findNLFrom, if_pos hi, if_neg h10, if_pos h13, if_neg hpair,
      countNLFrom, if_pos hi, if_neg h10, if_pos h13, if_neg hpair,
      eventOffsets, if_pos hi, if_neg h10, if_pos h13, if_neg hpair, ih,
      Prod.mk.injEq]
    exact ⟨by omega, take_write count maxPos i _ acc⟩
  · intro i count acc hi h10 h13 ih
    rw [findNLFrom, if_pos hi, if_neg h10, if_neg h13,
      countNLFrom, if_pos hi, if_neg h10, if_neg h13,
      eventOffsets, if_pos hi, if_neg h10, if_neg h13, ih]
  · intro i count acc hi
    rw [findNLFrom, if_neg hi, countNLFrom, if_neg hi, eventOffsets, if_neg hi]
    simp

/-! ### Correctness of the vectorized byte search -/

/-- Reading inside the allocation. -/
theorem byteAt_eq_getElem (mem : List Nat) (i : Nat) (h : i < mem.length) :
    byteAt mem i = mem[i] := by
  simp [byteAt, List.getD_eq_getElem?_getD, List.getElem?_eq_getElem h]

/-- Reading past the allocation yields the padding byte 0. -/
theorem byteAt_eq_zero (mem : List Nat) (i : Nat) (h : mem.length ≤ i) :
    byteAt mem i = 0 := by
  simp [byteAt, List.getD_eq_getElem?_getD, List.getElem?_eq_none h]

/-- A non-zero byte is evidence the index is inside the allocation. -/
theorem lt_length_of_byteAt_ne_zero (mem : List Nat) (i : Nat)
    (h : byteAt mem i ≠ 0) : i < mem.length := by
  by_contra hc
  exact h (byteAt_eq_zero mem i (by omega))

/-- The scalar search is the scan from index 0. -/
theorem strider_strchr_eq_scanFrom (mem : List Nat) (target : Nat) :
    strider_strchr mem target = scanFrom mem target 0 := rfl

/-- One step of the scalar scan. -/
theorem scanFrom_step (mem : List Nat) (target i : Nat) (h : i < mem.length) :
    scanFrom mem target i =
      if byteAt mem i = 0 then (if target = 0 then some i else none)
      else if byteAt mem i = target then some i
      else scanFrom mem target (i + 1) := by
  rw [scanFrom, List.drop_eq_getElem_cons h, strchrGo, ← byteAt_eq_getElem mem i h,
    scanFrom]

/-- The scalar scan skips over a region containing neither the terminator
nor the target. -/
theorem scanFrom_skip (mem : List Nat) (target : Nat) : ∀ d i,
    (∀ j, i ≤ j → j < i + d → byteAt mem j ≠ 0 ∧ byteAt mem j ≠ target) →
    scanFrom mem target i = scanFrom mem target (i + d) := by
  intro d
  induction d with
  | zero => intro i _; rfl
  | succ d ih =>
    intro i hreg
    have hi := hreg i (by omega) (by omega)
    have hlen : i < mem.length := lt_length_of_byteAt_ne_zero mem i hi.1
    rw [scanFrom_step mem target i hlen, if_neg hi.1, if_neg hi.2, ih (i + 1)
      (fun j hj1 hj2 => hreg j (by omega) (by omega)),
      show i + 1 + d = i + (d + 1) by omega]

/-- The zero vector is the broadcast of the zero byte. -/
theorem vec_zero_eq_set1 (W : Nat) : strider_vec_zero W = strider_vec_set1 W 0 := rfl

/-- The aligned chunk loop of `strider_strchr_simd` agrees with the scalar
scan from the same offset, provided the bytes before the offset contain
neither the terminator nor the target.  `L` is the index of the string's
first terminator, which must lie inside the allocation. -/
theorem strchrChunkLoop_eq_scan (W : Nat) (hW : 0 < W) (hW32 : W ≤ 32)
    (mem : List Nat) (target L : Nat)
    (hL : L < mem.length) (h0 : byteAt mem L = 0)
    (hpos : ∀ j < L, byteAt mem j ≠ 0) :
    ∀ off, (∀ j < off, byteAt mem j ≠ 0 ∧ byteAt mem j ≠ target) →
    strchrChunkLoop W hW mem target off = scanFrom mem target off := by
  suffices h : ∀ n off, mem.length - off ≤ n →
      (∀ j < off, byteAt mem j ≠ 0 ∧ byteAt mem j ≠ target) →
      strchrChunkLoop W hW mem target off = scanFrom mem target off by
    exact fun off hinv => h mem.length off (by omega) hinv
  intro n
  induction n with
  | zero =>
    intro off hle hinv
    have hoffL : off ≤ L := by
      by_contra hc
      exact (hinv L (by omega)).1 h0
    omega
  | succ n ih =>
    intro off hle hinv
    have hoffL : off ≤ L := by
      by_contra hc
      exact (hinv L (by omega)).1 h0
    have hofflen : off < mem.length := by omega
    rw [strchrChunkLoop, if_pos hofflen]
    simp only [vec_zero_eq_set1, movemask_cmpeq_load]
    by_cases hnull : indMask (byteAt mem) 0 off W ≠ 0
    · rw [if_pos hnull]
      obtain ⟨hnzW, hnz0, hnzmin⟩ := ctz_indMask (byteAt mem) 0 W off hW32 hnull
      have hoffnz : off + strider_ctz32 (indMask (byteAt mem) 0 off W) = L := by
        have h1 : L ≤ off + strider_ctz32 (indMask (byteAt mem) 0 off W) := by
          by_contra hc
          exact hpos _ (by omega) hnz0
        have h2 : ¬(L < off + strider_ctz32 (indMask (byteAt mem) 0 off W)) := by
          intro hc
          exact hnzmin (L - off) (by omega) (by
            rw [show off + (L - off) = L by omega]
            exact h0)
        omega
      by_cases htm : indMask (byteAt mem) target off W ≠ 0 ∧
          strider_ctz32 (indMask (byteAt mem) target off W)
            < strider_ctz32 (indMask (byteAt mem) 0 off W)
      · rw [if_pos htm]
        obtain ⟨htzW, htzt, htzmin⟩ :=
          ctz_indMask (byteAt mem) target W off hW32 htm.1
        have htarget0 : target ≠ 0 := by
          intro hc
          subst hc
          exact absurd htm.2 (lt_irrefl _)
        rw [scanFrom_skip mem target
          (strider_ctz32 (indMask (byteAt mem) target off W)) off
          (fun j hj1 hj2 => ⟨by
              have := hnzmin (j - off) (by omega)
              rw [show off + (j - off) = j by omega] at this
              exact this,
            by
              have := htzmin (j - off) (by omega)
              rw [show off + (j - off) = j by omega] at this
              exact this⟩)]
        rw [scanFrom_step mem target _ (lt_length_of_byteAt_ne_zero mem _ (by
          rw [htzt]
          exact htarget0)),
          if_neg (by rw [htzt]; exact htarget0), if_pos htzt]
      · rw [if_neg htm]
        have hskip : ∀ j, off ≤ j →
            j < off + strider_ctz32 (indMask (byteAt mem) 0 off W) →
            byteAt mem j ≠ 0 ∧ byteAt mem j ≠ target := by
          intro j hj1 hj2
          constructor
          · have := hnzmin (j - off) (by omega)
            rw [show off + (j - off) = j by omega] at this
            exact this
          · by_cases hMT : indMask (byteAt mem) target off W = 0
            · have := (indMask_eq_zero (byteAt mem) target W off).mp hMT
                (j - off) (by omega)
              rw [show off + (j - off) = j by omega] at this
              exact this
            · have hle2 : strider_ctz32 (indMask (byteAt mem) 0 off W)
                  ≤ strider_ctz32 (indMask (byteAt mem) target off W) := by
                rcases Nat.lt_or_ge (strider_ctz32 (indMask (byteAt mem) target off W))
                  (strider_ctz32 (indMask (byteAt mem) 0 off W)) with hlt | hge
                · exact absurd ⟨hMT, hlt⟩ htm
                · exact hge
              obtain ⟨_, _, htzmin⟩ :=
                ctz_indMask (byteAt mem) target W off hW32 hMT
              have := htzmin (j - off) (by omega)
              rw [show off + (j - off) = j by omega] at this
              exact this
        have hstep0 : byteAt mem
            (off + strider_ctz32 (indMask (byteAt mem) 0 off W)) = 0 := by
          rw [hoffnz]; exact h0
        rw [scanFrom_skip mem target
          (strider_ctz32 (indMask (byteAt mem) 0 off W)) off hskip,
          scanFrom_step mem target _ (by omega : off +
            strider_ctz32 (indMask (byteAt mem) 0 off W) < mem.length),
          if_pos hstep0]
    · rw [if_neg hnull]
      have hnull0 : indMask (byteAt mem) 0 off W = 0 := by omega
      have hno0 : ∀ j < W, byteAt mem (off + j) ≠ 0 :=
        (indMask_eq_zero (byteAt mem) 0 W off).mp hnull0
      by_cases hMT : indMask (byteAt mem) target off W ≠ 0
      · rw [if_pos hMT]
        obtain ⟨htzW, htzt, htzmin⟩ :=
          ctz_indMask (byteAt mem) target W off hW32 hMT
        have htarget0 : target ≠ 0 := by
          intro hc
          subst hc
          exact hMT hnull0
        rw [scanFrom_skip mem target
          (strider_ctz32 (indMask (byteAt mem) target off W)) off
          (fun j hj1 hj2 => ⟨by
              have := hno0 (j - off) (by omega)
              rw [show off + (j - off) = j by omega] at this
              exact this,
            by
              have := htzmin (j - off) (by omega)
              rw [show off + (j - off) = j by omega] at this
              exact this⟩)]
        rw [scanFrom_step mem target _ (lt_length_of_byteAt_ne_zero mem _ (by
          rw [htzt]
          exact htarget0)),
          if_neg (by rw [htzt]; exact htarget0), if_pos htzt]
      · rw [if_neg hMT]
        have hMT0 : indMask (byteAt mem) target off W = 0 := by omega
        have hnot : ∀ j < W, byteAt mem (off + j) ≠ target :=
          (indMask_eq_zero (byteAt mem) target W off).mp hMT0
        rw [ih (off + W) (by omega) (by
          intro j hj
          by_cases hjo : j < off
          · exact hinv j hjo
          · refine ⟨?_, ?_⟩
            · have := hno0 (j - off) (by omega)
              rw [show off + (j - off) = j by omega] at this
              exact this
            · have := hnot (j - off) (by omega)
              rw [show off + (j - off) = j by omega] at this
              exact this),
          ← scanFrom_skip mem target W off (fun j hj1 hj2 => ⟨by
            have := hno0 (j - off) (by omega)
            rw [show off + (j - off) = j by omega] at this
            exact this,
          by
            have := hnot (j - off) (by omega)
            rw [show off + (j - off) = j by omega] at this
            exact this⟩)]

/-- Correctness of the unaligned-prefix loop of `strider_strchr_simd`: an
early return agrees with the scalar scan, and falling through certifies
that the prefix holds neither terminator nor target. -/
theorem strchrPrefix_spec (mem : List Nat) (target P L : Nat)
    (hL : L < mem.length) (h0 : byteAt mem L = 0)
    (hpos : ∀ j < L, byteAt mem j ≠ 0) :
    ∀ i, (∀ j, j < i → byteAt mem j ≠ 0 ∧ byteAt mem j ≠ target) →
    (∀ r, strchrPrefix mem target P i = some r → scanFrom mem target i = r) ∧
    (strchrPrefix mem target P i = none → ∀ j, i ≤ j → j < P →
      byteAt mem j ≠ 0 ∧ byteAt mem j ≠ target) := by
  suffices h : ∀ n i, P - i ≤ n →
      (∀ j, j < i → byteAt mem j ≠ 0 ∧ byteAt mem j ≠ target) →
      (∀ r, strchrPrefix mem target P i = some r → scanFrom mem target i = r) ∧
      (strchrPrefix mem target P i = none → ∀ j, i ≤ j → j < P →
        byteAt mem j ≠ 0 ∧ byteAt mem j ≠ target) by
    exact fun i hinv => h P i (by omega) hinv
  intro n
  induction n with
  | zero =>
    intro i hle hinv
    rw [strchrPrefix, if_neg (by omega)]
    exact ⟨fun r hr => Option.noConfusion hr, fun _ j hj1 hj2 => absurd hj2 (by omega)⟩
  | succ n ih =>
    intro i hle hinv
    by_cases hiP : i < P
    · rw [strchrPrefix, if_pos hiP]
      by_cases ht : byteAt mem i = target
      · rw [if_pos ht]
        refine ⟨fun r hr => ?_, fun hc => Option.noConfusion hc⟩
        have hr' : some i = r := by
          injection hr
        subst hr'
        by_cases hz : byteAt mem i = 0
        · have hiL : i = L := by
            have h1 : i ≤ L := by
              by_contra hc
              exact (hinv L (by omega)).1 h0
            have h2 : L ≤ i := by
              by_contra hc
              exact hpos i (by omega) hz
            omega
          have htarget : target = 0 := by rw [← ht, hz]
          rw [scanFrom_step mem target i (by omega), if_pos hz, if_pos htarget]
        · rw [scanFrom_step mem target i (lt_length_of_byteAt_ne_zero mem i hz),
            if_neg hz, if_pos ht]
      · rw [if_neg ht]
        by_cases hz : byteAt mem i = 0
        · rw [if_pos hz]
          refine ⟨fun r hr => ?_, fun hc => Option.noConfusion hc⟩
          have hr' : (if target = 0 then some i else none) = r := by
            injection hr
          subst hr'
          have htarget : target ≠ 0 := by
            intro hc
            rw [hc, ← hz] at ht
            exact ht rfl
          have hiL : i = L := by
            have h1 : i ≤ L := by
              by_contra hc
              exact (hinv L (by omega)).1 h0
            have h2 : L ≤ i := by
              by_contra hc
              exact hpos i (by omega) hz
            omega
          rw [scanFrom_step mem target i (by omega), if_pos hz, if_neg htarget]
        · rw [if_neg hz]
          have hinv' : ∀ j, j < i + 1 → byteAt mem j ≠ 0 ∧ byteAt mem j ≠ target := by
            intro j hj
            by_cases hji : j < i
            · exact hinv j hji
            · have : j = i := by omega
              subst this
              exact ⟨hz, ht⟩
          obtain ⟨hsome, hnone⟩ := ih (i + 1) (by omega) hinv'
          refine ⟨fun r hr => ?_, fun hr j hj1 hj2 => ?_⟩
          · rw [scanFrom_step mem target i (lt_length_of_byteAt_ne_zero mem i hz),
              if_neg hz, if_neg ht]
            exact hsome r hr
          · by_cases hji : i + 1 ≤ j
            · exact hnone hr j hji hj2
            · have : j = i := by omega
              subst this
              exact ⟨hz, ht⟩
    · rw [strchrPrefix, if_neg hiP]
      exact ⟨fun r hr => Option.noConfusion hr,
        fun _ j hj1 hj2 => absurd hj2 (by omega)⟩

/-- Main refinement theorem for byte search: for every alignment of the
base address, every chunk width, and every null-terminated string (first
terminator at index `L` inside the allocation, arbitrary bytes after it),
the vectorized search returns exactly the scalar reference result. -/
theorem strchr_simd_eq_scalar_of_terminator (W : Nat) (hW : 0 < W) (hW32 : W ≤ 32)
    (addr : Nat) (mem : List Nat) (target L : Nat)
    (hL : L < mem.length) (h0 : byteAt mem L = 0)
    (hpos : ∀ j < L, byteAt mem j ≠ 0) :
    strider_strchr_simd W hW addr mem target = strider_strchr mem target := by
  rw [strider_strchr_eq_scanFrom]
  have hvac : ∀ j, j < 0 → byteAt mem j ≠ 0 ∧ byteAt mem j ≠ target := by omega
  simp only [strider_strchr_simd]
  by_cases hP : 0 < (W - addr % W) % W
  · rw [if_pos hP]
    cases hpre : strchrPrefix mem target ((W - addr % W) % W) 0 with
    | some r =>
      exact ((strchrPrefix_spec mem target _ L hL h0 hpos 0 hvac).1 r hpre).symm
    | none =>
      show strchrChunkLoop W hW mem target ((W - addr % W) % W)
        = scanFrom mem target 0
      have hnone := (strchrPrefix_spec mem target _ L hL h0 hpos 0 hvac).2 hpre
      rw [strchrChunkLoop_eq_scan W hW hW32 mem target L hL h0 hpos _
        (fun j hj => hnone j (by omega) hj)]
      have hskip := scanFrom_skip mem target ((W - addr % W) % W) 0
        (fun j hj1 hj2 => hnone j hj1 (by omega))
      rw [Nat.zero_add] at hskip
      exact hskip.symm
  · rw [if_neg hP]
    exact strchrChunkLoop_eq_scan W hW hW32 mem target L hL h0 hpos 0 (by omega)

/-! ### Memory-safety as read-footprint: the newline operations depend
only on bytes at offsets inside `[0, size)` -/

/-- The line-feed counter reads only inside the buffer. -/
theorem countLF_congr (mem mem' : Nat → Nat) (size : Nat)
    (h : ∀ i < size, mem i = mem' i) : ∀ i,
    countLF mem size i = countLF mem' size i := by
  refine countLF.induct mem size (fun i => countLF mem size i = countLF mem' size i)
    ?_ ?_
  · intro i hi ih
    conv_lhs => rw [countLF]
    conv_rhs => rw [countLF]
    rw [if_pos hi, if_pos hi, h i hi, ih]
  · intro i hi
    rw [countLF, if_neg hi, countLF, if_neg hi]

/-- The unpaired-carriage-return counter reads only inside the buffer
(the lookahead at `i + 1` is guarded by `i + 1 < size`). -/
theorem countCRUnpaired_congr (mem mem' : Nat → Nat) (size : Nat)
    (h : ∀ i < size, mem i = mem' i) : ∀ i,
    countCRUnpaired mem size i = countCRUnpaired mem' size i := by
  refine countCRUnpaired.induct mem size
    (fun i => countCRUnpaired mem size i = countCRUnpaired mem' size i) ?_ ?_
  · intro i hi ih
    conv_lhs => rw [countCRUnpaired]
    conv_rhs => rw [countCRUnpaired]
    rw [if_pos hi, if_pos hi, h i hi, ih]
    by_cases hi1 : i + 1 < size
    · rw [h (i + 1) hi1]
    · simp [hi1]
  · intro i hi
    rw [countCRUnpaired, if_neg hi, countCRUnpaired, if_neg hi]

/-- The scalar newline counter reads only inside the buffer. -/
theorem countNLFrom_congr (mem mem' : Nat → Nat) (size : Nat)
    (h : ∀ i < size, mem i = mem' i) : ∀ i,
    countNLFrom mem size i = countNLFrom mem' size i := by
  intro i
  rw [countNLFrom_eq_spec, countNLFrom_eq_spec, countLF_congr mem mem' size h i,
    countCRUnpaired_congr mem mem' size h i]

/-- The recorded event offsets depend only on bytes inside the buffer. -/
theorem eventOffsets_congr (mem mem' : Nat → Nat) (size : Nat)
    (h : ∀ i < size, mem i = mem' i) : ∀ i,
    eventOffsets mem size i = eventOffsets mem' size i := by
  refine countNLFrom.induct mem size
    (fun i => eventOffsets mem size i = eventOffsets mem' size i) ?_ ?_ ?_ ?_ ?_
  · intro i hi h10 ih
    have h10' : mem' i = 10 := by rw [← h i hi]; exact h10
    rw [eventOffsets, if_pos hi, if_pos h10, ih]
    conv_rhs => rw [eventOffsets]
    rw [if_pos hi, if_pos h10']
  · intro i hi h10 h13 hpair ih
    have h10' : ¬mem' i = 10 := by rw [← h i hi]; exact h10
    have h13' : mem' i = 13 := by rw [← h i hi]; exact h13
    have hpair' : i + 1 < size ∧ mem' (i + 1) = 10 :=
      ⟨hpair.1, by rw [← h (i + 1) hpair.1]; exact hpair.2⟩
    rw [eventOffsets, if_pos hi, if_neg h10, if_pos h13, if_pos hpair, ih]
    conv_rhs => rw [eventOffsets]
    rw [if_pos hi, if_neg h10', if_pos h13', if_pos hpair']
  · intro i hi h10 h13 hpair ih
    have h10' : ¬mem' i = 10 := by rw [← h i hi]; exact h10
    have h13' : mem' i = 13 := by rw [← h i hi]; exact h13
    have hpair' : ¬(i + 1 < size ∧ mem' (i + 1) = 10) := by
      intro hc
      exact hpair ⟨hc.1, by rw [h (i + 1) hc.1]; exact hc.2⟩
    rw [eventOffsets, if_pos hi, if_neg h10, if_pos h13, if_neg hpair, ih]
    conv_rhs => rw [eventOffsets]
    rw [if_pos hi, if_neg h10', if_pos h13', if_neg hpair']
  · intro i hi h10 h13 ih
    have h10' : ¬mem' i = 10 := by rw [← h i hi]; exact h10
    have h13' : ¬mem' i = 13 := by rw [← h i hi]; exact h13
    rw [eventOffsets, if_pos hi, if_neg h10, if_neg h13, ih]
    conv_rhs => rw [eventOffsets]
    rw [if_pos hi, if_neg h10', if_neg h13']
  · intro i hi
    rw [eventOffsets, if_neg hi, eventOffsets, if_neg hi]

/-- The position-listing function reads only inside the buffer. -/
theorem find_newline_positions_congr (mem mem' : Nat → Nat) (size maxPos : Nat)
    (h : ∀ i < size, mem i = mem' i) :
    strider_find_newline_positions mem size maxPos
      = strider_find_newline_positions mem' size maxPos := by
  rw [strider_find_newline_positions, strider_find_newline_positions,
    findNLFrom_spec, findNLFrom_spec, countNLFrom_congr mem mem' size h,
    eventOffsets_congr mem mem' size h]

/-- The vector load reads only lanes below the window end. -/
theorem vec_load_congr (mem mem' : Nat → Nat) (off W : Nat)
    (h : ∀ i, off ≤ i → i < off + W → mem i = mem' i) :
    strider_vec_load mem off W = strider_vec_load mem' off W := by
  unfold strider_vec_load
  apply List.map_congr_left
  intro a ha
  have := List.mem_range.mp ha
  exact h (off + a) (by omega) (by omega)

/-- The carriage-return loop reads memory only at the boundary peek,
which is guarded by `size > W`. -/
theorem crLoop_congr (W : Nat) (mem mem' : Nat → Nat) (size lf cr : Nat)
    (h : W < size → mem W = mem' W) : ∀ i,
    crLoop W mem size lf cr i = crLoop W mem' size lf cr i := by
  refine crLoop.induct W mem size lf cr
    (fun i => crLoop W mem size lf cr i = crLoop W mem' size lf cr i) ?_ ?_
  · intro i hi ih
    conv_lhs => rw [crLoop]
    conv_rhs => rw [crLoop]
    rw [if_pos hi, if_pos hi, ih]
    by_cases hpeek : size > W
    · rw [h hpeek]
    · simp [hpeek]
  · intro i hi
    rw [crLoop, if_neg hi, crLoop, if_neg hi]

/-- One chunk iteration reads only the chunk bytes and the guarded
one-byte peek after it. -/
theorem chunkNL_congr (W : Nat) (mem mem' : Nat → Nat) (size : Nat)
    (hW : W ≤ size) (h : ∀ i < size, mem i = mem' i) :
    chunkNL W mem size = chunkNL W mem' size := by
  simp only [chunkNL]
  rw [vec_load_congr mem mem' 0 W (fun i h1 h2 => h i (by omega)),
    crLoop_congr W mem mem' size _ _ (fun hpeek => h W (by omega))]

/-- The chunk loop and tail read only inside the buffer. -/
theorem simdNLLoop_congr (W : Nat) (hW : 0 < W) : ∀ (size : Nat)
    (mem mem' : Nat → Nat), (∀ i < size, mem i = mem' i) →
    simdNLLoop W hW mem size = simdNLLoop W hW mem' size := by
  intro size
  induction size using Nat.strong_induction_on with
  | _ size ih =>
    intro mem mem' h
    by_cases hws : W ≤ size
    · conv_lhs => rw [simdNLLoop]
      conv_rhs => rw [simdNLLoop]
      rw [if_pos hws, if_pos hws,
        chunkNL_congr W mem mem' size hws h,
        ih (size - W) (by omega) (fun i => mem (W + i)) (fun i => mem' (W + i))
          (fun i hi => h (W + i) (by omega))]
    · rw [simdNLLoop, if_neg hws, simdNLLoop, if_neg hws]
      exact countNLFrom_congr mem mem' size h 0

/-- The vectorized newline counter reads only inside the buffer. -/
theorem count_newlines_simd_congr (W : Nat) (hW : 0 < W) (addr : Nat)
    (mem mem' : Nat → Nat) (size : Nat) (h : ∀ i < size, mem i = mem' i) :
    strider_count_newlines_simd W hW addr mem size
      = strider_count_newlines_simd W hW addr mem' size := by
  unfold strider_count_newlines_simd
  by_cases hp : 0 < (W - addr % W) % W ∧ (W - addr % W) % W < size
  · rw [if_pos hp, if_pos hp]
    rw [strider_count_newlines, strider_count_newlines,
      countNLFrom_congr mem mem' ((W - addr % W) % W)
        (fun i hi => h i (by omega)) 0,
      simdNLLoop_congr W hW (size - (W - addr % W) % W) _ _
        (fun i hi => h ((W - addr % W) % W + i) (by omega))]
  · rw [if_neg hp, if_neg hp]
    exact simdNLLoop_congr W hW size mem mem' h

/-! ### Agreement of the movemask code paths -/

/-- Isolating one bit with a mask. -/
theorem and_one_shiftLeft_eq (x i : Nat) :
    x &&& (1 <<< i) = if x.testBit i = true then 1 <<< i else 0 := by
  rw [Nat.one_shiftLeft]
  apply Nat.eq_of_testBit_eq
  intro j
  rw [Nat.testBit_and]
  cases h : x.testBit i with
  | true =>
    rw [if_pos rfl]
    by_cases hij : i = j
    · subst hij
      simp [h, Nat.testBit_two_pow]
    · simp [Nat.testBit_two_pow_of_ne hij]
  | false =>
    rw [if_neg (by simp [h])]
    rw [Nat.zero_testBit]
    by_cases hij : i = j
    · subst hij
      simp [h]
    · simp [Nat.testBit_two_pow_of_ne hij]

/-- The low bit of a lane shifted right by 7 is its sign bit. -/
theorem shift7_and_one (lane : Nat) :
    (lane >>> 7) &&& 1 = if lane.testBit 7 = true then 1 else 0 := by
  rw [Nat.and_one_is_mod, Nat.shiftRight_eq_div_pow, Nat.testBit_to_div_mod,
    (by norm_num : (2 : Nat) ^ 7 = 128)]
  by_cases h : lane / 128 % 2 = 1
  · rw [if_pos (by simp [h]), h]
  · rw [if_neg (by simp [h])]
    omega

/-- The NEON shift-and-combine emulation of the 128-bit movemask computes
exactly the scalar (and documented native) sign-bit mask, lane by lane. -/
theorem neon128_eq_scalar_movemask (v : List Nat) :
    strider_vec128_movemask_neon v = strider_vec_movemask v := by
  rw [strider_vec128_movemask_neon, strider_vec_movemask]
  suffices h : ∀ s, armCombineGo (v.map (fun lane => lane >>> 7)) s = movemaskGo v s by
    exact h 0
  induction v with
  | nil => intro s; rfl
  | cons lane rest ih =>
    intro s
    rw [List.map_cons, armCombineGo, movemaskGo, ih (s + 1), shift7_and_one]
    have h80 : lane &&& 0x80 ≠ 0 ↔ lane.testBit 7 = true := by
      rw [(by decide : (0x80 : Nat) = 1 <<< 7), and_one_shiftLeft_eq]
      cases h : lane.testBit 7 <;> simp [h]
    cases h : lane.testBit 7 with
    | true =>
      rw [if_pos rfl, if_pos (h80.mpr h)]
    | false =>
      rw [if_neg (by simp [h]), if_neg (by simp [h80, h]), Nat.zero_shiftLeft]

/-- Bit `j` of the scalar movemask is the sign bit of lane `j`. -/
theorem movemask_testBit (v : List Nat) : ∀ j,
    (strider_vec_movemask v).testBit j = true
      ↔ (j < v.length ∧ (v.getD j 0) &&& 0x80 ≠ 0) := by
  induction v with
  | nil =>
    intro j
    simp [strider_vec_movemask, movemaskGo]
  | cons lane rest ih =>
    intro j
    rw [movemask_cons]
    match j with
    | 0 =>
      by_cases h : lane &&& 0x80 ≠ 0
      · rw [if_pos h]
        have hmod : (1 + 2 * strider_vec_movemask rest) % 2 = 1 := by omega
        simp [Nat.testBit_zero, hmod, h]
      · rw [if_neg h]
        have hmod : (0 + 2 * strider_vec_movemask rest) % 2 = 0 := by omega
        simp [Nat.testBit_zero, hmod]
        exact not_ne_iff.mp h
    | j + 1 =>
      have hb : (if lane &&& 0x80 ≠ 0 then 1 else 0) ≤ 1 := by
        by_cases h : lane &&& 0x80 ≠ 0 <;> simp [h]
      have hdiv : ((if lane &&& 0x80 ≠ 0 then 1 else 0)
          + 2 * strider_vec_movemask rest) / 2 = strider_vec_movemask rest := by
        omega
      rw [Nat.testBit_add_one, hdiv, ih j]
      simp [List.getD_cons_succ]

/-- The movemask of a concatenation combines the two half-masks with a
shift by the first half's lane count. -/
theorem movemask_append (a b : List Nat) :
    strider_vec_movemask (a ++ b)
      = strider_vec_movemask a ||| (strider_vec_movemask b <<< a.length) := by
  induction a with
  | nil =>
    simp [strider_vec_movemask, movemaskGo]
  | cons lane rest ih =>
    rw [List.cons_append, movemask_cons, ih, movemask_cons, List.length_cons,
      Nat.shiftLeft_succ]
    have hb : (if lane &&& 0x80 ≠ 0 then 1 else 0) ≤ 1 := by
      by_cases h : lane &&& 0x80 ≠ 0 <;> simp [h]
    rw [← or_bit_add _ _ hb, ← or_two_mul, ← Nat.or_assoc, or_bit_add _ _ hb]

/-! ### The capability cache -/

/-- Once initialized with the probed descriptor, every further call
returns it unchanged and performs no further detection. -/
theorem runCpuFeatureCalls_steady (detect : strider_cpu_features_t) : ∀ m,
    runCpuFeatureCalls detect ⟨true, detect, 1⟩ m
      = (List.replicate m detect, ⟨true, detect, 1⟩) := by
  intro m
  induction m with
  | zero => rfl
  | succ m ih =>
    rw [runCpuFeatureCalls]
    have hstep : strider_get_cpu_features detect ⟨true, detect, 1⟩
        = (detect, ⟨true, detect, 1⟩) := rfl
    rw [hstep, ih, List.replicate_succ]

/-- Full behavior of the capability cache from the process's initial
state: every one of `n + 1` successive calls (the first included) returns
the probed descriptor bit-for-bit, the detection runs exactly once, and
the final cache state is the immutable initialized singleton. -/
theorem runCpuFeatureCalls_spec (detect : strider_cpu_features_t) (n : Nat) :
    runCpuFeatureCalls detect initialCpuCache (n + 1)
      = (List.replicate (n + 1) detect, ⟨true, detect, 1⟩) := by
  rw [runCpuFeatureCalls]
  have hstep : strider_get_cpu_features detect initialCpuCache
      = (detect, ⟨true, detect, 1⟩) := rfl
  rw [hstep, runCpuFeatureCalls_steady, List.replicate_succ]

/-! ## Claim theorems -/

/-- Evaluation helper: the vectorized count on `"\r\n"` at an address
congruent to 15 mod 16 is 2 (the straddled pair is double-counted). -/
theorem crlf_simd_at_addr15_eval :
    strider_count_newlines_simd 16 (by decide) 15 crlfBuf 2 = 2 := by
  rw [strider_count_newlines_simd]
  norm_num
  rw [strider_count_newlines, simdNLLoop, if_neg (by norm_num),
    strider_count_newlines]
  simp [countNLFrom, crlfBuf, bufOfList]

/-- C1: the claim says `strider_count_newlines_simd` equals the scalar
reference for every buffer, length and base alignment, in particular when
a CRLF pair straddles the unaligned-prefix/aligned-body boundary.  The
code violates this (and its own header guarantee): on the buffer
`"\r\n"` of size 2 placed at an address congruent to 15 mod 16 (so the
unaligned prefix is exactly the `\r`), the prefix is counted by the
scalar routine with its lookahead truncated at the prefix end, so the
`\r` counts as a standalone event, and the following `\n` is counted
again by the remainder of the scan: the SIMD count is 2 where the scalar
reference counts the pair once. -/
theorem count_newlines_simd_prefix_straddle_bug :
    strider_count_newlines_simd 16 (by decide) 15 crlfBuf 2 = 2
      ∧ strider_count_newlines crlfBuf 2 = 1 := by
  refine ⟨crlf_simd_at_addr15_eval, ?_⟩
  simp [strider_count_newlines, countNLFrom, crlfBuf, bufOfList]

/-- C3: the claim says every search function depends only on buffer
contents and length, never on the base address's alignment.  The
vectorized newline counter violates this: the same two-byte contents
`"\r\n"` yield count 1 at a 16-byte-aligned base address and count 2 at
an address congruent to 15 mod 16 (the unaligned-prefix boundary splits
the CRLF pair and it is counted twice). -/
theorem count_newlines_simd_alignment_dependent :
    strider_count_newlines_simd 16 (by decide) 0 crlfBuf 2 = 1
      ∧ strider_count_newlines_simd 16 (by decide) 15 crlfBuf 2 = 2 := by
  constructor
  · rw [strider_count_newlines_simd]
    norm_num
    rw [simdNLLoop, if_neg (by norm_num), strider_count_newlines]
    simp [countNLFrom, crlfBuf, bufOfList]
  · exact crlf_simd_at_addr15_eval

/-- C2: for every null-terminated string (first terminator at index `L`
inside the allocation, arbitrary bytes after it), every target byte,
every chunk width and every base-address alignment, the vectorized
`strider_strchr_simd` returns a result identical to the scalar reference
`strider_strchr`: the same first-occurrence index when one exists (the
first target occurrence winning over a later terminator, the terminator
itself findable when the target is the zero byte), and not-found in both
otherwise, including zero-length and single-byte input. -/
theorem strchr_simd_refines_scalar (W : Nat) (hW : 0 < W) (hW32 : W ≤ 32)
    (addr : Nat) (mem : List Nat) (target L : Nat)
    (hL : L < mem.length) (h0 : byteAt mem L = 0)
    (hpos : ∀ j < L, byteAt mem j ≠ 0) :
    strider_strchr_simd W hW addr mem target = strider_strchr mem target :=
  strchr_simd_eq_scalar_of_terminator W hW hW32 addr mem target L hL h0 hpos

/-- Witness for C2 at a concrete input: the string "Mississippi" with
target 's' at an unaligned base address. -/
theorem strchr_simd_refines_scalar_witness :
    (0 : Nat) < 16 ∧ (16 : Nat) ≤ 32 ∧
    (11 : Nat) < ([77, 105, 115, 115, 105, 115, 115, 105, 112, 112, 105, 0] : List Nat).length ∧
    byteAt [77, 105, 115, 115, 105, 115, 115, 105, 112, 112, 105, 0] 11 = 0 ∧
    (∀ j < 11, byteAt [77, 105, 115, 115, 105, 115, 115, 105, 112, 112, 105, 0] j ≠ 0) ∧
    strider_strchr_simd 16 (by decide) 3
        [77, 105, 115, 115, 105, 115, 115, 105, 112, 112, 105, 0] 115
      = strider_strchr [77, 105, 115, 115, 105, 115, 115, 105, 112, 112, 105, 0] 115 :=
  ⟨by decide, by decide, by decide, by decide, by decide,
   strchr_simd_refines_scalar 16 (by decide) (by decide) 3
     [77, 105, 115, 115, 105, 115, 115, 105, 112, 112, 105, 0] 115 11
     (by decide) (by decide) (by decide)⟩

/-- C4: the scalar newline counter counts exactly one event per `\n`
byte plus one event per `\r` byte not immediately followed (inside the
buffer) by `\n`; a `\r\n` pair therefore contributes exactly one event
(its `\n`, with the pair's `\r` excluded).  On the scenario buffer
"line 1\r\nline 2\rline 3\n" the count is 3. -/
theorem count_newlines_event_spec :
    (∀ (mem : Nat → Nat) (size : Nat),
      strider_count_newlines mem size
        = countLF mem size 0 + countCRUnpaired mem size 0) ∧
    strider_count_newlines scenarioBuf 22 = 3 := by
  refine ⟨fun mem size => countNLFrom_eq_spec mem size 0, ?_⟩
  simp [strider_count_newlines, countNLFrom, scenarioBuf, bufOfList]

/-- C5: the position-listing variant returns the true total event count
together with exactly the first `min(count, capacity)` event offsets (the
offset of the `\r` for a pair), never writing a slot at index at or past
the capacity; on "1\n2\n3\n4\n5\n" with capacity 3 it returns 5 and
stores offsets 1, 3, 5. -/
theorem find_newline_positions_truncation_spec :
    (∀ (mem : Nat → Nat) (size maxPos : Nat),
      strider_find_newline_positions mem size maxPos
        = (strider_count_newlines mem size,
           (eventOffsets mem size 0).take maxPos)) ∧
    (∀ (mem : Nat → Nat) (size maxPos : Nat),
      ((strider_find_newline_positions mem size maxPos).2).length
        = min (strider_count_newlines mem size) maxPos) ∧
    strider_find_newline_positions scenario5Buf 10 3 = (5, [1, 3, 5]) := by
  have hmain : ∀ (mem : Nat → Nat) (size maxPos : Nat),
      strider_find_newline_positions mem size maxPos
        = (strider_count_newlines mem size,
           (eventOffsets mem size 0).take maxPos) := by
    intro mem size maxPos
    rw [strider_find_newline_positions, findNLFrom_spec]
    norm_num
    rw [strider_count_newlines]
  refine ⟨hmain, fun mem size maxPos => ?_, ?_⟩
  · rw [hmain]
    show ((eventOffsets mem size 0).take maxPos).length = _
    rw [List.length_take, eventOffsets_length, strider_count_newlines,
      Nat.min_comm]
  · rw [hmain]
    rw [strider_count_newlines]
    simp [countNLFrom, eventOffsets, scenario5Buf, bufOfList]

/-- C6 counterexample: on the zero-length (empty) string, searching for
the zero byte does not return not-found: both the scalar reference and
the vectorized search return the terminator position itself, refuting
the claim's "for every target byte (all 256 values)". -/
theorem strchr_empty_nul_target_found :
    strider_strchr [0] 0 = some 0 ∧
    strider_strchr_simd 16 (by decide) 0 [0] 0 = some 0 := by
  constructor
  · rfl
  · rw [strchr_simd_eq_scalar_of_terminator 16 (by decide) (by decide) 0 [0] 0 0
      (by decide) (by decide) (by omega)]
    rfl

/-- C6 (amended): on zero-length input, `find_byte` returns not-found in
both the scalar reference and the vectorized search for every non-zero
target byte; for the zero byte both return the terminator position. -/
theorem strchr_empty_nonzero_not_found (target : Nat) (h : target ≠ 0) :
    strider_strchr [0] target = none ∧
    ∀ (W : Nat) (hW : 0 < W), W ≤ 32 → ∀ (addr : Nat),
      strider_strchr_simd W hW addr [0] target = none := by
  have hs : strider_strchr [0] target = none := by
    simp [strider_strchr, strchrGo, h]
  refine ⟨hs, fun W hW hW32 addr => ?_⟩
  rw [strchr_simd_eq_scalar_of_terminator W hW hW32 addr [0] target 0
    (by decide) (by decide) (by omega)]
  exact hs

/-- Witness for the amended C6 at the concrete target 'A'. -/
theorem strchr_empty_nonzero_not_found_witness :
    (65 : Nat) ≠ 0 ∧ strider_strchr [0] 65 = none ∧
      strider_strchr_simd 16 (by decide) 5 [0] 65 = none :=
  ⟨by decide, (strchr_empty_nonzero_not_found 65 (by decide)).1,
   (strchr_empty_nonzero_not_found 65 (by decide)).2 16 (by decide) (by decide) 5⟩

/-- C7: the bit utilities: `strider_ctz32 0 = 32` (the sentinel),
`strider_ctz32 (1 <<< k) = k` for every `k < 32`, `strider_ctz32 x` is
the 0-based index of the lowest set bit of every non-zero 32-bit `x`,
and `strider_popcount32` agrees with the naive bit-counting loop on
every input. -/
theorem bit_utilities_spec :
    strider_ctz32 0 = 32 ∧
    (∀ k < 32, strider_ctz32 (1 <<< k) = k) ∧
    (∀ x, 0 < x → x < 2 ^ 32 →
      x.testBit (strider_ctz32 x) = true ∧
      ∀ j < strider_ctz32 x, x.testBit j = false) ∧
    (∀ x, strider_popcount32 x = naivePopcount x) := by
  have hgen : ∀ x, 0 < x → x < 2 ^ 32 →
      x.testBit (strider_ctz32 x) = true ∧
      ∀ j < strider_ctz32 x, x.testBit j = false := by
    intro x h0 h32
    rw [strider_ctz32_eq_lowBitIdx x h0 h32]
    exact ⟨lowBitIdx_testBit x (by omega), lowBitIdx_testBit_lt x (by omega)⟩
  refine ⟨by decide, ?_, hgen, strider_popcount32_eq_naive⟩
  intro k hk
  have h1 : (0 : Nat) < 1 <<< k := by
    rw [Nat.one_shiftLeft]
    positivity
  have h2 : 1 <<< k < 2 ^ 32 := by
    rw [Nat.one_shiftLeft]
    exact (Nat.pow_lt_pow_iff_right (by omega)).mpr hk
  obtain ⟨hbit, _⟩ := hgen (1 <<< k) h1 h2
  rw [Nat.one_shiftLeft, Nat.testBit_two_pow] at hbit
  rw [Nat.one_shiftLeft]
  exact (of_decide_eq_true hbit).symm

/-- C8: `extract_mask` returns a bitmask whose bit `i` is the sign bit of
lane `i` (so, composed with `compare_equal`, bit `i` is set iff lane `i`
of the two inputs is byte-equal), with `n` lanes mapping to bits
`0..n-1`; the NEON shift-and-combine emulation of the 128-bit movemask
and the two-half 256-bit emulation (`lo_mask | (hi_mask << 16)`) agree
with the scalar-array path (which also models the documented semantics
of the native instruction paths). -/
theorem movemask_engine_spec :
    (∀ (v : List Nat) (j : Nat), (strider_vec_movemask v).testBit j = true
      ↔ (j < v.length ∧ (v.getD j 0) &&& 0x80 ≠ 0)) ∧
    (∀ (a b : List Nat) (j : Nat), j < a.length → j < b.length →
      ((strider_vec_movemask (strider_vec_cmpeq a b)).testBit j = true
        ↔ a.getD j 0 = b.getD j 0)) ∧
    (∀ v : List Nat, strider_vec128_movemask_neon v = strider_vec_movemask v) ∧
    (∀ v : List Nat, v.length = 32 →
      strider_vec256_movemask_neon v = strider_vec_movemask v) := by
  refine ⟨movemask_testBit, ?_, neon128_eq_scalar_movemask, ?_⟩
  · intro a b j hja hjb
    rw [movemask_testBit]
    have hj : j < (strider_vec_cmpeq a b).length := by
      rw [strider_vec_cmpeq, List.length_zipWith]
      omega
    have hgl : (strider_vec_cmpeq a b)[j] = if a[j] = b[j] then 255 else 0 := by
      simp [strider_vec_cmpeq, List.getElem_zipWith]
    have hget : (strider_vec_cmpeq a b).getD j 0
        = if a.getD j 0 = b.getD j 0 then 255 else 0 := by
      rw [List.getD_eq_getElem _ _ hj, hgl, List.getD_eq_getElem _ _ hja,
        List.getD_eq_getElem _ _ hjb]
    rw [hget]
    by_cases heq : a.getD j 0 = b.getD j 0
    · rw [if_pos heq]
      exact ⟨fun _ => heq, fun _ => ⟨hj, by decide⟩⟩
    · rw [if_neg heq]
      exact ⟨fun hc => absurd hc.2 (by decide), fun hc => absurd hc heq⟩
  · intro v hv
    have htl : (v.take 16).length = 16 := by
      rw [List.length_take]
      omega
    have happ := movemask_append (v.take 16) (v.drop 16)
    rw [List.take_append_drop] at happ
    rw [strider_vec256_movemask_neon, neon128_eq_scalar_movemask,
      neon128_eq_scalar_movemask, happ, htl]

/-- C9: `strider_get_cpu_features` is idempotent: starting from the
process's zero-initialized cache, every one of `n + 1` successive calls
(the first included) returns the probed descriptor bit-for-bit, the
hardware detection runs exactly once, and the cache ends in the
immutable initialized state that no later call mutates. -/
theorem get_cpu_features_idempotent (detect : strider_cpu_features_t) (n : Nat) :
    runCpuFeatureCalls detect initialCpuCache (n + 1)
      = (List.replicate (n + 1) detect, ⟨true, detect, 1⟩) :=
  runCpuFeatureCalls_spec detect n

/-- C10: every read of the newline operations stays inside `[0, size)`:
the result of the scalar counter, the position-listing variant, and the
vectorized counter (for every chunk width and base alignment) is
unchanged when the bytes at offsets at or past `size` are replaced
arbitrarily — no out-of-bounds read can influence any result. -/
theorem newline_ops_read_in_bounds (mem mem' : Nat → Nat) (size : Nat)
    (h : ∀ i < size, mem i = mem' i) :
    strider_count_newlines mem size = strider_count_newlines mem' size ∧
    (∀ maxPos, strider_find_newline_positions mem size maxPos
      = strider_find_newline_positions mem' size maxPos) ∧
    (∀ (W : Nat) (hW : 0 < W) (addr : Nat),
      strider_count_newlines_simd W hW addr mem size
        = strider_count_newlines_simd W hW addr mem' size) :=
  ⟨countNLFrom_congr mem mem' size h 0,
   fun maxPos => find_newline_positions_congr mem mem' size maxPos h,
   fun W hW addr => count_newlines_simd_congr W hW addr mem mem' size h⟩

/-- Witness for C10 at a concrete input: the buffer "a\r\n" of size 3
with the bytes past the end replaced by 77. -/
theorem newline_ops_read_in_bounds_witness :
    (∀ i < 3, bufOfList [97, 13, 10] i
      = (fun j => if j < 3 then bufOfList [97, 13, 10] j else 77) i) ∧
    strider_count_newlines (bufOfList [97, 13, 10]) 3
      = strider_count_newlines (fun j => if j < 3 then bufOfList [97, 13, 10] j else 77) 3 := by
  have h : ∀ i < 3, bufOfList [97, 13, 10] i
      = (fun j => if j < 3 then bufOfList [97, 13, 10] j else 77) i := by
    intro i hi
    simp [hi]
  exact ⟨h, (newline_ops_read_in_bounds (bufOfList [97, 13, 10]) _ 3 h).1⟩

end Strider
